import Mathlib

/-!
Verification of the SocketStream matchmaking server and client hooks.

The definitions below are a shallow embedding of the repository's code:

* `handleJoinMode`, `handleLeaveChat`, `handleDisconnecting`, `step`, `run`
  embed the Socket.IO server's event handlers (`io.on("connection", ...)`
  in `server/index.ts`): the waiting queue, the compatibility scan, room
  creation/teardown and the events emitted to clients.
* `callGeminiRetry` embeds the Gemini retry loop with exponential backoff,
  and `handleSendMessageAI` embeds the AI branch of the `send_message`
  handler.
* `handleIncomingSignal` embeds the signal-provenance check of the
  client's `useWebRTC` hook, and `handleAddInterest` the tag-input
  normalization of the client's `App` component.
-/

namespace SocketStream

/-- Mode requested by a participant (shared `UserMode`, "human" | "ai"). -/
inductive UserMode where
  | human
  | ai
deriving Repr, DecidableEq

/-- Payload of the `join_mode` event (shared `ChatRequest`). -/
structure ChatRequest where
  mode : UserMode
  interests : List String
deriving Repr, DecidableEq

/-- Entry of the server's matchmaking queue (`QueuedUser`). -/
structure QueuedUser where
  id : String
  interests : List String
deriving Repr, DecidableEq

/-- A Socket.IO room: its id and the sockets currently joined to it.
Personal per-socket rooms are not modelled; `members` are only the
sockets added by `socket.join(roomId)` in the match path. -/
structure Room where
  roomId : String
  members : List String
deriving Repr, DecidableEq

/-- A chat message (shared `ChatMessage`). Timestamp and id are opaque. -/
structure ChatMessage where
  id : String
  sender : String
  text : String
  timestamp : Nat
deriving Repr, DecidableEq

/-- Events the server emits to clients over the control channel. -/
inductive Emit where
  | matchFound (dest roomId peerId : String) (isAi initFlag : Bool)
  | waitingInQueue (dest : String)
  | peerDisconnected (dest : String)
  | receiveMessage (dest : String) (msg : ChatMessage)
deriving Repr, DecidableEq

/-- Server state: the global `waitingQueue` and the Socket.IO rooms. -/
structure ServerState where
  queue : List QueuedUser
  rooms : List Room
deriving Repr, DecidableEq

/-- Initial server state: empty queue, no rooms. -/
def initState : ServerState := ⟨[], []⟩

/-- Tag compatibility test of the `join_mode` scan: both sets empty
(wildcard-to-wildcard), or both non-empty with a common tag
(`userTags.some(tag => potentialMatch.interests.includes(tag))`). -/
def compatible (userTags waiterTags : List String) : Bool :=
  (userTags.isEmpty && waiterTags.isEmpty) ||
    (!userTags.isEmpty && !waiterTags.isEmpty &&
      userTags.any (fun tag => waiterTags.contains tag))

/-- The linear scan of `waitingQueue` with its splice: returns the first
compatible entry together with the queue with that entry removed
(`matchedIndex` loop followed by `waitingQueue.splice(matchedIndex, 1)`). -/
def scanQueue (userTags : List String) : List QueuedUser →
    Option (QueuedUser × List QueuedUser)
  | [] => none
  | u :: rest =>
    if compatible userTags u.interests then some (u, rest)
    else match scanQueue userTags rest with
      | some (p, rest2) => some (p, u :: rest2)
      | none => none

/-- Room id built for a human match: `room_${partnerId}_${socket.id}`. -/
def mkRoomId (partnerId sid : String) : String :=
  "room_" ++ partnerId ++ "_" ++ sid

/-- Socket.IO `socket.join(rid)`: add `sid` to the room named `rid`,
creating the room when absent; joining a room twice is a no-op. -/
def joinRoom (rooms : List Room) (rid sid : String) : List Room :=
  if rooms.any (fun r => r.roomId == rid) then
    rooms.map (fun r =>
      if r.roomId == rid then
        { r with members := if r.members.contains sid then r.members
                            else r.members ++ [sid] }
      else r)
  else rooms ++ [⟨rid, [sid]⟩]

/-- The `join_mode` handler. First the idempotent re-entry guard
(`waitingQueue = waitingQueue.filter(user => user.id !== socket.id)`),
then: AI mode emits an immediate single-member match; human mode scans the
queue, and either creates the room and emits the two role-tagged
`match_found` events (partner first with flag `true`, requester with
`false`), or enqueues the requester and acks `waiting_in_queue`. -/
def handleJoinMode (st : ServerState) (sid : String) (req : ChatRequest) :
    ServerState × List Emit :=
  let queue1 := st.queue.filter (fun u => u.id != sid)
  match req.mode with
  | .ai =>
      ({ st with queue := queue1 },
       [Emit.matchFound sid ("ai_" ++ sid) "ai-agent" true true])
  | .human =>
      match scanQueue req.interests queue1 with
      | some (partner, rest) =>
          let rid := mkRoomId partner.id sid
          let rooms2 := joinRoom (joinRoom st.rooms rid sid) rid partner.id
          ({ queue := rest, rooms := rooms2 },
           [Emit.matchFound partner.id rid sid false true,
            Emit.matchFound sid rid partner.id false false])
      | none =>
          ({ st with queue := queue1 ++ [⟨sid, req.interests⟩] },
           [Emit.waitingInQueue sid])

/-- Emissions of `socket.to(room).emit("peer_disconnected")` over every
room the leaver is in: one event per other member of each such room. -/
def notifyPeers (rooms : List Room) (sid : String) : List Emit :=
  (rooms.filter (fun r => r.members.contains sid)).flatMap
    (fun r => (r.members.filter (fun m => m != sid)).map Emit.peerDisconnected)

/-- Removal of `sid` from every room (`socket.leave(room)` on each
room during `leave_chat`; for `disconnecting` the removal is performed by
Socket.IO itself immediately after the handler runs). -/
def removeFromRooms (rooms : List Room) (sid : String) : List Room :=
  rooms.map (fun r => { r with members := r.members.filter (fun m => m != sid) })

/-- The `leave_chat` handler: purge the queue entry, notify every room the
socket is in, and leave those rooms. -/
def handleLeaveChat (st : ServerState) (sid : String) :
    ServerState × List Emit :=
  ({ queue := st.queue.filter (fun u => u.id != sid),
     rooms := removeFromRooms st.rooms sid },
   notifyPeers st.rooms sid)

/-- The `disconnecting` handler plus the membership removal Socket.IO does
right after it: purge the queue entry and notify every room; the socket's
memberships disappear with the socket. -/
def handleDisconnecting (st : ServerState) (sid : String) :
    ServerState × List Emit :=
  ({ queue := st.queue.filter (fun u => u.id != sid),
     rooms := removeFromRooms st.rooms sid },
   notifyPeers st.rooms sid)

/-- Control-channel events received by the server. -/
inductive ServerEvent where
  | joinMode (sid : String) (req : ChatRequest)
  | leaveChat (sid : String)
  | disconnecting (sid : String)
deriving Repr, DecidableEq

/-- One step of the server: dispatch an event to its handler. -/
def step (st : ServerState) (ev : ServerEvent) : ServerState × List Emit :=
  match ev with
  | .joinMode sid req => handleJoinMode st sid req
  | .leaveChat sid => handleLeaveChat st sid
  | .disconnecting sid => handleDisconnecting st sid

/-- Run a sequence of events, collecting all emissions in order. -/
def run (st : ServerState) : List ServerEvent → ServerState × List Emit
  | [] => (st, [])
  | ev :: evs =>
      let (st1, out1) := step st ev
      let (st2, out2) := run st1 evs
      (st2, out1 ++ out2)

/-- The matched waiting entry, if any, that a human `join_mode` from `sid`
with tags `tags` selects against state `st`. -/
def matchedPartner (st : ServerState) (sid : String) (tags : List String) :
    Option QueuedUser :=
  (scanQueue tags (st.queue.filter (fun u => u.id != sid))).map Prod.fst

/-- The compatibility rule as the spec words it: both tag sets empty, or
both non-empty with non-empty intersection. -/
def specCompatible (userTags waiterTags : List String) : Prop :=
  (userTags = [] ∧ waiterTags = []) ∨
    (userTags ≠ [] ∧ waiterTags ≠ [] ∧ ∃ t, t ∈ userTags ∧ t ∈ waiterTags)

lemma compatible_iff (userTags waiterTags : List String) :
    compatible userTags waiterTags = true ↔ specCompatible userTags waiterTags := by
  simp only [compatible, specCompatible, Bool.or_eq_true, Bool.and_eq_true,
    List.isEmpty_iff, Bool.not_eq_true', List.isEmpty_eq_false,
    List.any_eq_true, List.contains_iff_exists_mem_beq]
  constructor
  · rintro (⟨h1, h2⟩ | ⟨⟨h1, h2⟩, t, ht, u, hu, hb⟩)
    · exact Or.inl ⟨h1, h2⟩
    · exact Or.inr ⟨h1, h2, t, ht, (eq_of_beq hb) ▸ hu⟩
  · rintro (⟨h1, h2⟩ | ⟨h1, h2, t, ht, hu⟩)
    · exact Or.inl ⟨h1, h2⟩
    · exact Or.inr ⟨⟨h1, h2⟩, t, ht, t, hu, by simp⟩

lemma scanQueue_eq_some {tags : List String} {q : List QueuedUser}
    {p : QueuedUser} {rest : List QueuedUser}
    (h : scanQueue tags q = some (p, rest)) :
    compatible tags p.interests = true ∧ p ∈ q := by
  induction q generalizing rest with
  | nil => simp [scanQueue] at h
  | cons u us ih =>
    rw [scanQueue] at h
    by_cases hc : compatible tags u.interests = true
    · rw [if_pos hc] at h
      obtain ⟨h1, h2⟩ := Prod.mk.injEq .. ▸ (Option.some.injEq .. ▸ h)
      exact ⟨h1 ▸ hc, h1 ▸ List.mem_cons_self u us⟩
    · rw [if_neg hc] at h
      cases hrec : scanQueue tags us with
      | none => rw [hrec] at h; exact absurd h (by simp)
      | some pr =>
        obtain ⟨p2, rest2⟩ := pr
        rw [hrec] at h
        obtain ⟨h1, h2⟩ := Prod.mk.injEq .. ▸ (Option.some.injEq .. ▸ h)
        obtain ⟨hcomp, hmem⟩ := ih (h1 ▸ hrec)
        exact ⟨hcomp, List.mem_cons_of_mem u hmem⟩

lemma scanQueue_eq_none_iff {tags : List String} {q : List QueuedUser} :
    scanQueue tags q = none ↔ ∀ u ∈ q, compatible tags u.interests = false := by
  induction q with
  | nil => simp [scanQueue]
  | cons u us ih =>
    rw [scanQueue]
    by_cases hc : compatible tags u.interests = true
    · simp [if_pos hc, hc]
    · rw [if_neg hc]
      cases hrec : scanQueue tags us with
      | none =>
        simp only [List.mem_cons]
        constructor
        · intro _ v hv
          rcases hv with hv | hv
          · exact hv ▸ Bool.eq_false_iff.mpr hc
          · exact (ih.mp hrec) v hv
        · intro _; trivial
      | some pr =>
        obtain ⟨p2, rest2⟩ := pr
        constructor
        · intro h; exact absurd h (by simp)
        · intro hall
          have : scanQueue tags us = none :=
            ih.mpr (fun v hv => hall v (List.mem_cons_of_mem u hv))
          rw [hrec] at this; exact absurd this (by simp)

lemma scanQueue_cons_of_compatible {tags : List String} {a : QueuedUser}
    (rest : List QueuedUser) (h : compatible tags a.interests = true) :
    scanQueue tags (a :: rest) = some (a, rest) := by
  rw [scanQueue, if_pos h]

/-- C1: a human-mode `join_mode` produces a match with a waiting entry iff
some other waiting entry has tags compatible in the spec's sense (both
empty, or both non-empty with a common tag); the selected partner is
always spec-compatible, so an empty-tag requester is never paired with a
non-empty-tag waiter and vice versa. -/
theorem tag_correctness (st : ServerState) (sid : String) (tags : List String) :
    ((∃ u, matchedPartner st sid tags = some u) ↔
      ∃ u ∈ st.queue, u.id ≠ sid ∧ specCompatible tags u.interests)
    ∧ (∀ u, matchedPartner st sid tags = some u →
        specCompatible tags u.interests) := by
  constructor
  · rw [matchedPartner]
    cases hscan : scanQueue tags (st.queue.filter (fun u => u.id != sid)) with
    | none =>
      simp only [Option.map_none', (by simp : ∀ u : QueuedUser,
        (none = some u) = False), exists_false, false_iff]
      rintro ⟨u, hu, hne, hcomp⟩
      have hmem : u ∈ st.queue.filter (fun v => v.id != sid) :=
        List.mem_filter.mpr ⟨hu, by simpa using hne⟩
      have := scanQueue_eq_none_iff.mp hscan u hmem
      rw [(compatible_iff tags u.interests).mpr hcomp] at this
      exact absurd this (by simp)
    | some pr =>
      obtain ⟨p, rest⟩ := pr
      obtain ⟨hcomp, hmem⟩ := scanQueue_eq_some hscan
      simp only [Option.map_some', Option.some.injEq, true_iff, iff_true,
        exists_eq']
      obtain ⟨hq, hne⟩ := List.mem_filter.mp hmem
      exact ⟨p, hq, by simpa using hne, (compatible_iff tags p.interests).mp hcomp⟩
  · intro u hu
    rw [matchedPartner] at hu
    cases hscan : scanQueue tags (st.queue.filter (fun v => v.id != sid)) with
    | none => rw [hscan] at hu; exact absurd hu (by simp)
    | some pr =>
      obtain ⟨p, rest⟩ := pr
      rw [hscan] at hu
      obtain ⟨hcomp, _⟩ := scanQueue_eq_some hscan
      have hpu : p = u := by simpa using hu
      exact (compatible_iff tags u.interests).mp (hpu ▸ hcomp)

/-- Witness for `tag_correctness` at a concrete queue: a requester with
tags `["music", "travel"]` against a waiter with tags `["music"]`. -/
theorem tag_correctness_witness :
    specCompatible ["music", "travel"] ["music"] :=
  (tag_correctness ⟨[⟨"A", ["music"]⟩], []⟩ "B" ["music", "travel"]).2
    ⟨"A", ["music"]⟩ (by decide)

/-- C3: the queue is scanned oldest-first and the first compatible entry
wins: when every waiting entry (other than the requester's own) is
compatible with the requester, the match selects the head of the queue. -/
theorem fifo_first_fit (st : ServerState) (sid : String) (tags : List String)
    (a : QueuedUser) (rest : List QueuedUser)
    (hq : st.queue.filter (fun u => u.id != sid) = a :: rest)
    (hall : ∀ u ∈ a :: rest, compatible tags u.interests = true) :
    matchedPartner st sid tags = some a := by
  rw [matchedPartner, hq,
    scanQueue_cons_of_compatible rest (hall a (List.mem_cons_self a rest))]
  rfl

/-- Witness for `fifo_first_fit`: entries A, B, C all compatible with a
new requester D; the match selects A. -/
theorem fifo_first_fit_witness :
    matchedPartner ⟨[⟨"A", ["x"]⟩, ⟨"B", ["x"]⟩, ⟨"C", ["x"]⟩], []⟩ "D" ["x"]
      = some ⟨"A", ["x"]⟩ :=
  fifo_first_fit ⟨[⟨"A", ["x"]⟩, ⟨"B", ["x"]⟩, ⟨"C", ["x"]⟩], []⟩ "D" ["x"]
    ⟨"A", ["x"]⟩ [⟨"B", ["x"]⟩, ⟨"C", ["x"]⟩] (by decide) (by decide)

/-- C4: in a human match the roles are deterministic: the previously
waiting partner receives `match_found` with the flag `true` (it creates
the WebRTC offer) and the requester receives it with the flag `false`. -/
theorem role_determinism (st : ServerState) (sid : String)
    (tags : List String) (u : QueuedUser)
    (h : matchedPartner st sid tags = some u) :
    (handleJoinMode st sid ⟨UserMode.human, tags⟩).2 =
      [Emit.matchFound u.id (mkRoomId u.id sid) sid false true,
       Emit.matchFound sid (mkRoomId u.id sid) u.id false false] := by
  rw [matchedPartner] at h
  cases hscan : scanQueue tags (st.queue.filter (fun v => v.id != sid)) with
  | none => rw [hscan] at h; exact absurd h (by simp)
  | some pr =>
    obtain ⟨p, rest⟩ := pr
    rw [hscan] at h
    have hpu : p = u := by simpa using h
    subst hpu
    simp [handleJoinMode, hscan]

/-- Witness for `role_determinism`: B joins while A waits; A is told it is
the initiating side, B the responding side. -/
theorem role_determinism_witness :
    (handleJoinMode ⟨[⟨"A", []⟩], []⟩ "B" ⟨UserMode.human, []⟩).2 =
      [Emit.matchFound "A" (mkRoomId "A" "B") "B" false true,
       Emit.matchFound "B" (mkRoomId "A" "B") "A" false false] :=
  role_determinism ⟨[⟨"A", []⟩], []⟩ "B" [] ⟨"A", []⟩ (by decide)

/-- Count of `peer_disconnected` events delivered to `dest` in a list of
emissions. -/
def countPeerDisconnected (dest : String) (out : List Emit) : Nat :=
  out.countP (fun e => match e with
    | Emit.peerDisconnected d => d == dest
    | _ => false)

lemma step_join_empty (a : String) :
    step initState (ServerEvent.joinMode a ⟨UserMode.human, []⟩) =
      (⟨[⟨a, []⟩], []⟩, [Emit.waitingInQueue a]) := by
  simp [step, handleJoinMode, scanQueue, initState]

lemma step_join_second (a b : String) (hab : a ≠ b) :
    step ⟨[⟨a, []⟩], []⟩ (ServerEvent.joinMode b ⟨UserMode.human, []⟩) =
      (⟨[], [⟨mkRoomId a b, [b, a]⟩]⟩,
       [Emit.matchFound a (mkRoomId a b) b false true,
        Emit.matchFound b (mkRoomId a b) a false false]) := by
  have hab2 : (b == a) = false := beq_eq_false_iff_ne.mpr (Ne.symm hab)
  have hne : (a != b) = true := by
    simp [bne, beq_eq_false_iff_ne.mpr hab]
  simp [step, handleJoinMode, scanQueue, compatible, joinRoom,
    List.contains, List.elem, hne, hab2, hab]

lemma withdraw_from_pair (a b rid : String) (hab : a ≠ b) :
    handleLeaveChat ⟨[], [⟨rid, [b, a]⟩]⟩ b =
      (⟨[], [⟨rid, [a]⟩]⟩, [Emit.peerDisconnected a]) := by
  have hne : (a != b) = true := by
    simp [bne, beq_eq_false_iff_ne.mpr hab]
  simp [handleLeaveChat, notifyPeers, removeFromRooms,
    List.contains, List.elem, hne]

lemma withdraw_absent (a b rid : String) (hab : a ≠ b) :
    handleLeaveChat ⟨[], [⟨rid, [a]⟩]⟩ b = (⟨[], [⟨rid, [a]⟩]⟩, []) := by
  have hab1 : (a == b) = false := beq_eq_false_iff_ne.mpr hab
  have hne : (a != b) = true := by simp [bne, hab1]
  simp [handleLeaveChat, notifyPeers, removeFromRooms,
    List.contains, List.elem, hab1, hne]
  exact fun h => h.symm

/-- C5: after A and B are matched, any two withdrawal events for B
(`leave_chat` and/or `disconnecting`, in any order) deliver exactly one
`peer_disconnected` to A over the whole run, never two. -/
theorem idempotent_withdrawal (a b : String) (e1 e2 : ServerEvent)
    (hab : a ≠ b)
    (h1 : e1 = ServerEvent.leaveChat b ∨ e1 = ServerEvent.disconnecting b)
    (h2 : e2 = ServerEvent.leaveChat b ∨ e2 = ServerEvent.disconnecting b) :
    countPeerDisconnected a
      (run initState [ServerEvent.joinMode a ⟨UserMode.human, []⟩,
                      ServerEvent.joinMode b ⟨UserMode.human, []⟩,
                      e1, e2]).2 = 1 := by
  have hstep1 : step ⟨[], [⟨mkRoomId a b, [b, a]⟩]⟩ e1 =
      (⟨[], [⟨mkRoomId a b, [a]⟩]⟩, [Emit.peerDisconnected a]) := by
    rcases h1 with h1 | h1 <;> subst h1 <;>
      exact withdraw_from_pair a b _ hab
  have hstep2 : step ⟨[], [⟨mkRoomId a b, [a]⟩]⟩ e2 =
      (⟨[], [⟨mkRoomId a b, [a]⟩]⟩, []) := by
    rcases h2 with h2 | h2 <;> subst h2 <;>
      exact withdraw_absent a b _ hab
  have key : run initState [ServerEvent.joinMode a ⟨UserMode.human, []⟩,
      ServerEvent.joinMode b ⟨UserMode.human, []⟩, e1, e2] =
      (⟨[], [⟨mkRoomId a b, [a]⟩]⟩,
       [Emit.waitingInQueue a,
        Emit.matchFound a (mkRoomId a b) b false true,
        Emit.matchFound b (mkRoomId a b) a false false,
        Emit.peerDisconnected a]) := by
    simp [run, step_join_empty a, step_join_second a b hab, hstep1, hstep2]
  rw [key, countPeerDisconnected]
  simp [List.countP, List.countP.go]

/-- Witness for `idempotent_withdrawal`: concrete participants "A", "B"
with a `leave_chat` followed by a `disconnecting` for "B". -/
theorem idempotent_withdrawal_witness :
    countPeerDisconnected "A"
      (run initState [ServerEvent.joinMode "A" ⟨UserMode.human, []⟩,
                      ServerEvent.joinMode "B" ⟨UserMode.human, []⟩,
                      ServerEvent.leaveChat "B",
                      ServerEvent.disconnecting "B"]).2 = 1 :=
  idempotent_withdrawal "A" "B" (ServerEvent.leaveChat "B")
    (ServerEvent.disconnecting "B") (by decide) (Or.inl rfl) (Or.inr rfl)

lemma scanQueue_perm {tags : List String} {q : List QueuedUser}
    {p : QueuedUser} {rest : List QueuedUser}
    (h : scanQueue tags q = some (p, rest)) : q.Perm (p :: rest) := by
  induction q generalizing rest with
  | nil => simp [scanQueue] at h
  | cons u us ih =>
    rw [scanQueue] at h
    by_cases hc : compatible tags u.interests = true
    · rw [if_pos hc] at h
      obtain ⟨h1, h2⟩ := Prod.mk.injEq .. ▸ (Option.some.injEq .. ▸ h)
      rw [← h1, ← h2]
    · rw [if_neg hc] at h
      cases hrec : scanQueue tags us with
      | none => rw [hrec] at h; exact absurd h (by simp)
      | some pr =>
        obtain ⟨p2, rest2⟩ := pr
        rw [hrec] at h
        obtain ⟨h1, h2⟩ := Prod.mk.injEq .. ▸ (Option.some.injEq .. ▸ h)
        subst h2
        have hperm : us.Perm (p :: rest2) := ih (h1 ▸ hrec)
        exact (hperm.cons u).trans (List.Perm.swap p u rest2)

/-- Rooms are pairwise member-disjoint: no socket is joined to two
distinct rooms. -/
def roomsDisjoint (rooms : List Room) : Prop :=
  rooms.Pairwise (fun r1 r2 => ∀ m ∈ r1.members, m ∉ r2.members)

/-- The state invariant: queue ids are distinct, room ids are distinct,
rooms are member-disjoint, and no queued participant is inside a room. -/
def Inv (st : ServerState) : Prop :=
  (st.queue.map QueuedUser.id).Nodup ∧
  (st.rooms.map Room.roomId).Nodup ∧
  roomsDisjoint st.rooms ∧
  ∀ u ∈ st.queue, ∀ r ∈ st.rooms, u.id ∉ r.members

/-- Test that a participant is a member of no room. -/
def notInAnyRoom (st : ServerState) (sid : String) : Bool :=
  st.rooms.all (fun r => !(r.members.contains sid))

/-- Serialization discipline the client observes: a participant only
issues `join_mode` after leaving its previous room (`leave_chat` precedes
`join_mode` in both the Stop and the Next flows of the client). -/
def guardOK (st : ServerState) : ServerEvent → Bool
  | .joinMode sid _ => notInAnyRoom st sid
  | .leaveChat _ => true
  | .disconnecting _ => true

/-- A whole event sequence respecting `guardOK` at each step. -/
def guardedFrom (st : ServerState) : List ServerEvent → Bool
  | [] => true
  | ev :: evs => guardOK st ev && guardedFrom (step st ev).1 evs

lemma joinRoom_props (rooms : List Room) (rid s : String)
    (hd : roomsDisjoint rooms)
    (hn : (rooms.map Room.roomId).Nodup)
    (hs : ∀ r ∈ rooms, s ∉ r.members) :
    roomsDisjoint (joinRoom rooms rid s) ∧
    ((joinRoom rooms rid s).map Room.roomId).Nodup ∧
    ∀ r2 ∈ joinRoom rooms rid s, ∀ m ∈ r2.members,
      m = s ∨ ∃ r ∈ rooms, m ∈ r.members := by
  rw [joinRoom]
  by_cases hany : rooms.any (fun r => r.roomId == rid) = true
  · rw [if_pos hany]
    set g : Room → Room := fun r =>
      if r.roomId == rid then
        { r with members := if r.members.contains s then r.members
                            else r.members ++ [s] }
      else r with hgdef
    have hgid : ∀ r, (g r).roomId = r.roomId := by
      intro r
      rw [hgdef]
      dsimp only
      split <;> rfl
    have hgmem : ∀ r, ∀ m ∈ (g r).members,
        m ∈ r.members ∨ (m = s ∧ r.roomId = rid) := by
      intro r m hm
      by_cases h : (r.roomId == rid) = true
      · rw [hgdef] at hm
        simp only [h, if_true] at hm
        by_cases h2 : r.members.contains s
        · simp only [h2, if_true] at hm
          exact Or.inl hm
        · simp only [h2] at hm
          rcases List.mem_append.mp hm with hm | hm
          · exact Or.inl hm
          · exact Or.inr ⟨by simpa using hm, by simpa using h⟩
      · rw [hgdef] at hm
        simp only [h] at hm
        exact Or.inl hm
    have hpid : rooms.Pairwise (fun r1 r2 => r1.roomId ≠ r2.roomId) := by
      rw [List.Nodup, List.pairwise_map] at hn
      exact hn
    refine ⟨?_, ?_, ?_⟩
    · have hcomb := hd.and hpid
      rw [roomsDisjoint, List.pairwise_map]
      refine hcomb.imp_of_mem ?_
      intro r1 r2 h1 h2 hr
      obtain ⟨hdis, hne⟩ := hr
      intro m hm1 hm2
      rcases hgmem r1 m hm1 with hm1a | ⟨hms, hr1⟩
      · rcases hgmem r2 m hm2 with hm2a | ⟨hms2, hr2⟩
        · exact hdis m hm1a hm2a
        · exact hs r1 h1 (hms2 ▸ hm1a)
      · rcases hgmem r2 m hm2 with hm2a | ⟨_, hr2⟩
        · exact hs r2 h2 (hms ▸ hm2a)
        · exact hne (hr1.trans hr2.symm)
    · have : (rooms.map g).map Room.roomId = rooms.map Room.roomId := by
        rw [List.map_map]
        exact List.map_congr_left (fun r _ => hgid r)
      rw [this]
      exact hn
    · intro r2 hr2 m hm
      obtain ⟨r, hr, rfl⟩ := List.mem_map.mp hr2
      rcases hgmem r m hm with hm | ⟨rfl, _⟩
      · exact Or.inr ⟨r, hr, hm⟩
      · exact Or.inl rfl
  · rw [if_neg hany]
    rw [Bool.not_eq_true] at hany
    have hnone : ∀ r ∈ rooms, r.roomId ≠ rid := by
      intro r hr
      have := List.any_eq_false.mp hany r hr
      simpa using this
    refine ⟨?_, ?_, ?_⟩
    · rw [roomsDisjoint, List.pairwise_append]
      refine ⟨hd, by simp, ?_⟩
      intro r1 h1 r2 h2
      have : r2 = ⟨rid, [s]⟩ := by simpa using h2
      subst this
      intro m hm
      simp only [List.mem_singleton]
      intro hms
      exact hs r1 h1 (hms ▸ hm)
    · rw [List.map_append, List.nodup_append]
      refine ⟨hn, by simp, ?_⟩
      intro x hx
      simp only [List.map_cons, List.map_nil, List.mem_singleton]
      intro hxr
      obtain ⟨r, hr, rfl⟩ := List.mem_map.mp hx
      exact hnone r hr hxr
    · intro r2 hr2 m hm
      rcases List.mem_append.mp hr2 with hr2 | hr2
      · exact Or.inr ⟨r2, hr2, hm⟩
      · have : r2 = ⟨rid, [s]⟩ := by simpa using hr2
        subst this
        exact Or.inl (by simpa using hm)

lemma removeFromRooms_props (rooms : List Room) (sid : String)
    (hd : roomsDisjoint rooms)
    (hn : (rooms.map Room.roomId).Nodup) :
    roomsDisjoint (removeFromRooms rooms sid) ∧
    ((removeFromRooms rooms sid).map Room.roomId).Nodup ∧
    ∀ r2 ∈ removeFromRooms rooms sid, ∀ m ∈ r2.members,
      ∃ r ∈ rooms, m ∈ r.members := by
  refine ⟨?_, ?_, ?_⟩
  · rw [roomsDisjoint, removeFromRooms, List.pairwise_map]
    refine hd.imp ?_
    intro r1 r2 hdis m hm1 hm2
    exact hdis m (List.mem_filter.mp hm1).1 (List.mem_filter.mp hm2).1
  · have : (removeFromRooms rooms sid).map Room.roomId =
        rooms.map Room.roomId := by
      rw [removeFromRooms, List.map_map]
      exact List.map_congr_left (fun r _ => rfl)
    rw [this]
    exact hn
  · intro r2 hr2 m hm
    obtain ⟨r, hr, rfl⟩ := List.mem_map.mp hr2
    exact ⟨r, hr, (List.mem_filter.mp hm).1⟩

lemma filter_map_id_nodup (q : List QueuedUser) (p : QueuedUser → Bool)
    (hqn : (q.map QueuedUser.id).Nodup) :
    ((q.filter p).map QueuedUser.id).Nodup :=
  List.Nodup.sublist ((q.filter_sublist).map QueuedUser.id) hqn

lemma scan_rest_nodup {tags : List String} {q rest : List QueuedUser}
    {p : QueuedUser} (hscan : scanQueue tags q = some (p, rest))
    (hqn : (q.map QueuedUser.id).Nodup) :
    ((rest.map QueuedUser.id).Nodup) ∧ p.id ∉ rest.map QueuedUser.id := by
  have hperm := (scanQueue_perm hscan).map QueuedUser.id
  have := (hperm.nodup_iff).mp hqn
  rw [List.map_cons, List.nodup_cons] at this
  exact ⟨this.2, this.1⟩

lemma queue_nodup_step (st : ServerState) (ev : ServerEvent)
    (hqn : (st.queue.map QueuedUser.id).Nodup) :
    (((step st ev).1).queue.map QueuedUser.id).Nodup := by
  cases ev with
  | joinMode sid req =>
    obtain ⟨mode, tags⟩ := req
    cases mode with
    | ai => exact filter_map_id_nodup st.queue _ hqn
    | human =>
      show (((handleJoinMode st sid ⟨UserMode.human, tags⟩).1).queue.map
        QueuedUser.id).Nodup
      rw [handleJoinMode]
      cases hscan : scanQueue tags (st.queue.filter (fun u => u.id != sid)) with
      | some pr =>
        obtain ⟨partner, rest⟩ := pr
        simp only
        exact (scan_rest_nodup hscan (filter_map_id_nodup st.queue _ hqn)).1
      | none =>
        simp only [List.map_append, List.map_cons, List.map_nil]
        rw [List.nodup_append]
        refine ⟨filter_map_id_nodup st.queue _ hqn, by simp, ?_⟩
        intro x hx
        obtain ⟨u, hu, rfl⟩ := List.mem_map.mp hx
        have := (List.mem_filter.mp hu).2
        simp only [List.mem_singleton]
        exact fun hderiv => absurd (by simpa using this) (by simp [hderiv])
  | leaveChat sid => exact filter_map_id_nodup st.queue _ hqn
  | disconnecting sid => exact filter_map_id_nodup st.queue _ hqn

lemma inv_step (st : ServerState) (ev : ServerEvent)
    (hinv : Inv st) (hg : guardOK st ev = true) : Inv (step st ev).1 := by
  obtain ⟨hqn, hrn, hrd, hqr⟩ := hinv
  cases ev with
  | joinMode sid req =>
    have hguard : ∀ r ∈ st.rooms, sid ∉ r.members := by
      simpa [guardOK, notInAnyRoom, List.all_eq_true] using hg
    obtain ⟨mode, tags⟩ := req
    cases mode with
    | ai =>
      refine ⟨filter_map_id_nodup st.queue _ hqn, hrn, hrd, ?_⟩
      intro u hu r hr
      exact hqr u (List.mem_filter.mp hu).1 r hr
    | human =>
      show Inv (handleJoinMode st sid ⟨UserMode.human, tags⟩).1
      rw [handleJoinMode]
      cases hscan : scanQueue tags (st.queue.filter (fun u => u.id != sid)) with
      | none =>
        simp only
        have hq2 := queue_nodup_step st (ServerEvent.joinMode sid
          ⟨UserMode.human, tags⟩) hqn
        refine ⟨?_, hrn, hrd, ?_⟩
        · have : (((handleJoinMode st sid ⟨UserMode.human, tags⟩).1).queue.map
              QueuedUser.id).Nodup := hq2
          rw [handleJoinMode, hscan] at this
          exact this
        · intro u hu r hr
          rcases List.mem_append.mp hu with hu | hu
          · exact hqr u (List.mem_filter.mp hu).1 r hr
          · have : u = ⟨sid, tags⟩ := by simpa using hu
            subst this
            exact hguard r hr
      | some pr =>
        obtain ⟨partner, rest⟩ := pr
        simp only
        have hfil := filter_map_id_nodup st.queue (fun u => u.id != sid) hqn
        have hrest := scan_rest_nodup hscan hfil
        have hperm := scanQueue_perm hscan
        have hpartner_mem : partner ∈ st.queue.filter (fun u => u.id != sid) :=
          hperm.mem_iff.mpr (List.mem_cons_self partner rest)
        have hrest_mem : ∀ u ∈ rest, u ∈ st.queue.filter (fun v => v.id != sid) :=
          fun u hu => hperm.mem_iff.mpr (List.mem_cons_of_mem partner hu)
        have hpartner_ne : partner.id ≠ sid := by
          have := (List.mem_filter.mp hpartner_mem).2
          simpa using this
        have hpartner_notroom : ∀ r ∈ st.rooms, partner.id ∉ r.members :=
          fun r hr => hqr partner (List.mem_filter.mp hpartner_mem).1 r hr
        have j1 := joinRoom_props st.rooms (mkRoomId partner.id sid) sid
          hrd hrn hguard
        obtain ⟨hd1, hn1, hmem1⟩ := j1
        have hs2 : ∀ r ∈ joinRoom st.rooms (mkRoomId partner.id sid) sid,
            partner.id ∉ r.members := by
          intro r hr hmem
          rcases hmem1 r hr partner.id hmem with h | ⟨r2, hr2, hmem2⟩
          · exact hpartner_ne h
          · exact hpartner_notroom r2 hr2 hmem2
        have j2 := joinRoom_props
          (joinRoom st.rooms (mkRoomId partner.id sid) sid)
          (mkRoomId partner.id sid) partner.id hd1 hn1 hs2
        obtain ⟨hd2, hn2, hmem2⟩ := j2
        refine ⟨hrest.1, hn2, hd2, ?_⟩
        intro u hu r hr hmem
        rcases hmem2 r hr u.id hmem with h | ⟨r1, hr1, hmem1m⟩
        · exact hrest.2 (h ▸ List.mem_map_of_mem QueuedUser.id hu)
        · rcases hmem1 r1 hr1 u.id hmem1m with h | ⟨r0, hr0, hmem0⟩
          · have := (List.mem_filter.mp (hrest_mem u hu)).2
            exact absurd h (by simpa using this)
          · exact hqr u (List.mem_filter.mp (hrest_mem u hu)).1 r0 hr0 hmem0
  | leaveChat sid =>
    obtain ⟨hd2, hn2, hmem2⟩ := removeFromRooms_props st.rooms sid hrd hrn
    refine ⟨filter_map_id_nodup st.queue _ hqn, hn2, hd2, ?_⟩
    intro u hu r hr hmem
    obtain ⟨r0, hr0, hmem0⟩ := hmem2 r hr u.id hmem
    exact hqr u (List.mem_filter.mp hu).1 r0 hr0 hmem0
  | disconnecting sid =>
    obtain ⟨hd2, hn2, hmem2⟩ := removeFromRooms_props st.rooms sid hrd hrn
    refine ⟨filter_map_id_nodup st.queue _ hqn, hn2, hd2, ?_⟩
    intro u hu r hr hmem
    obtain ⟨r0, hr0, hmem0⟩ := hmem2 r hr u.id hmem
    exact hqr u (List.mem_filter.mp hu).1 r0 hr0 hmem0

lemma run_fst (st : ServerState) (ev : ServerEvent) (evs : List ServerEvent) :
    (run st (ev :: evs)).1 = (run (step st ev).1 evs).1 := by
  cases hstep : step st ev with
  | mk st1 out1 =>
    cases hrun : run st1 evs with
    | mk st2 out2 => simp [run, hstep, hrun]

lemma inv_run (evs : List ServerEvent) :
    ∀ st, Inv st → guardedFrom st evs = true → Inv (run st evs).1 := by
  induction evs with
  | nil => intro st h _; simpa [run] using h
  | cons ev evs ih =>
    intro st h hg
    rw [guardedFrom, Bool.and_eq_true] at hg
    rw [run_fst]
    exact ih (step st ev).1 (inv_step st ev h hg.1) hg.2

lemma queue_nodup_run (evs : List ServerEvent) :
    ∀ st, (st.queue.map QueuedUser.id).Nodup →
      (((run st evs).1).queue.map QueuedUser.id).Nodup := by
  induction evs with
  | nil => intro st h; simpa [run] using h
  | cons ev evs ih =>
    intro st h
    rw [run_fst]
    exact ih (step st ev).1 (queue_nodup_step st ev h)

/-- Counterexample to C2 as stated: after the event sequence
join A, join B, join C, join A (the last join issued while A is still in
its room with B), participant "A" is a member of two distinct two-member
rooms at once. -/
theorem mutual_exclusivity_cex :
    ((run initState
        [ServerEvent.joinMode "A" ⟨UserMode.human, []⟩,
         ServerEvent.joinMode "B" ⟨UserMode.human, []⟩,
         ServerEvent.joinMode "C" ⟨UserMode.human, []⟩,
         ServerEvent.joinMode "A" ⟨UserMode.human, []⟩]).1.rooms.countP
      (fun r => r.members.contains "A" && decide (r.members.length = 2))) = 2 := by
  decide

/-- C2 amended: over every event sequence, no participant identity ever
appears in more than one waiting entry; and provided each `join_mode` is
issued by a participant currently in no room (which the client enforces
by emitting `leave_chat` before re-joining), no participant is a member
of more than one room. -/
theorem mutual_exclusivity_amended (evs : List ServerEvent) :
    (((run initState evs).1).queue.map QueuedUser.id).Nodup ∧
    (guardedFrom initState evs = true →
      roomsDisjoint (run initState evs).1.rooms) := by
  constructor
  · exact queue_nodup_run evs initState (by simp [initState])
  · intro hg
    have := inv_run evs initState ⟨by simp [initState], by simp [initState],
      by simp [initState, roomsDisjoint], by simp [initState]⟩ hg
    exact this.2.2.1

/-- Witness for `mutual_exclusivity_amended`: a guarded sequence in which
B leaves its room before re-joining. -/
theorem mutual_exclusivity_amended_witness :
    roomsDisjoint (run initState
      [ServerEvent.joinMode "A" ⟨UserMode.human, []⟩,
       ServerEvent.joinMode "B" ⟨UserMode.human, []⟩,
       ServerEvent.leaveChat "B",
       ServerEvent.joinMode "B" ⟨UserMode.human, []⟩]).1.rooms :=
  (mutual_exclusivity_amended
    [ServerEvent.joinMode "A" ⟨UserMode.human, []⟩,
     ServerEvent.joinMode "B" ⟨UserMode.human, []⟩,
     ServerEvent.leaveChat "B",
     ServerEvent.joinMode "B" ⟨UserMode.human, []⟩]).2 (by decide)

/-- Outcome of one call to the opaque Gemini backend
(`genAI.models.generateContent`): a text (possibly empty), or a thrown
error carrying a message. -/
inductive GenResult where
  | ok (text : String)
  | err (msg : String)
deriving Repr, DecidableEq

/-- Test that `pat` occurs at the start of `hay` (on character lists). -/
def listStartsWith : List Char → List Char → Bool
  | [], _ => true
  | _ :: _, [] => false
  | p :: ps, h :: hs => p == h && listStartsWith ps hs

/-- Substring containment on character lists. -/
def listContainsSub (hay pat : List Char) : Bool :=
  listStartsWith pat hay ||
    match hay with
    | [] => false
    | _ :: t => listContainsSub t pat

/-- JavaScript `msg.includes(pat)`: substring containment. -/
def msgIncludes (msg pat : String) : Bool :=
  listContainsSub msg.data pat.data

/-- The transient-failure classification of the retry loop:
`msg.includes("503") || msg.includes("500") || msg.includes("429")`. -/
def isTransient (msg : String) : Bool :=
  msgIncludes msg "503" || msgIncludes msg "500" || msgIncludes msg "429"

/-- Text returned if the `for` loop of `callGeminiRetry` falls through. -/
def fallbackText : String :=
  "I\x27m having trouble connecting to Gemini right now."

/-- Body of the `try` block for one attempt: the backend result, with an
empty text turned into the thrown `Error("Empty response")`. -/
def attemptOutcome (backend : Nat → GenResult) (attempt : Nat) :
    Except String String :=
  match backend attempt with
  | .ok t => if t = "" then .error "Empty response" else .ok t
  | .err m => .error m

/-- The `for (let attempt = 1; attempt <= retries; attempt++)` loop of
`callGeminiRetry`. Returns the final outcome together with the list of
backoff delays slept (`delay * Math.pow(2, attempt)` per retried
attempt). The fuel argument makes the recursion structural; it is always
called with enough fuel to reach the loop bound. -/
def retryLoop (backend : Nat → GenResult) (retries delay : Nat) :
    Nat → Nat → Except String String × List Nat
  | _, 0 => (Except.ok fallbackText, [])
  | attempt, fuel + 1 =>
    if attempt > retries then (Except.ok fallbackText, [])
    else
      match attemptOutcome backend attempt with
      | .ok t => (Except.ok t, [])
      | .error m =>
        if decide (attempt < retries) && isTransient m then
          let d := delay * 2 ^ attempt
          let (r, ds) := retryLoop backend retries delay (attempt + 1) fuel
          (r, d :: ds)
        else (Except.error m, [])

/-- The retrying Gemini call (`callGeminiRetry(history, retries, delay)`);
the backend is abstracted as a function from the attempt number to its
outcome. -/
def callGeminiRetry (backend : Nat → GenResult) (retries delay : Nat) :
    Except String String × List Nat :=
  retryLoop backend retries delay 1 (retries + 1)

/-- The AI branch of the `send_message` handler: on success one
`receive_message` with sender "ai"; on a thrown error one
`receive_message` with sender "system" and text "AI is currently
offline". The call uses the default arguments `retries = 3`,
`delay = 1000`. -/
def handleSendMessageAI (backend : Nat → GenResult) (msgId : String)
    (ts : Nat) : List ChatMessage :=
  match (callGeminiRetry backend 3 1000).1 with
  | .ok t => [⟨msgId, "ai", t, ts⟩]
  | .error _ => [⟨"error", "system", "AI is currently offline", ts⟩]

/-- Counterexample to C6 as stated: a backend whose response has empty
content on every attempt is not retried at all — the call surfaces the
terminal error `Empty response` after the first attempt with an empty
list of backoff delays, even though attempts remain. -/
theorem empty_response_cex :
    callGeminiRetry (fun _ => GenResult.ok "") 3 1000 =
      (Except.error "Empty response", []) := by
  rfl

/-- C6 amended: a response with empty content is treated as a failure,
but it surfaces immediately as a terminal error rather than being
retried, because the message "Empty response" is not transient-classified
by the substring test. -/
theorem empty_response_terminal (backend : Nat → GenResult)
    (retries delay : Nat) (hr : 1 ≤ retries)
    (hb : backend 1 = GenResult.ok "") :
    callGeminiRetry backend retries delay =
      (Except.error "Empty response", []) := by
  rw [callGeminiRetry]
  cases retries with
  | zero => exact absurd hr (by decide)
  | succ n =>
    have hgt : ¬ (1 > n + 1) := by omega
    have ht : isTransient "Empty response" = false := by decide
    simp [retryLoop, attemptOutcome, hb, hgt, ht]

/-- Witness for `empty_response_terminal` at a concrete backend. -/
theorem empty_response_terminal_witness :
    callGeminiRetry (fun _ => GenResult.ok "") 2 5 =
      (Except.error "Empty response", []) :=
  empty_response_terminal (fun _ => GenResult.ok "") 2 5 (by decide) rfl

/-- C7: if the backend fails with a transient-classified error on all 3
attempts, the caller emits exactly one terminal system-visible chat
message, and the backoff delays ([2000, 4000] ms) are non-decreasing. -/
theorem backoff_bound (backend : Nat → GenResult) (msgId : String) (ts : Nat)
    (h : ∀ i, 1 ≤ i → i ≤ 3 →
      ∃ m, backend i = GenResult.err m ∧ isTransient m = true) :
    handleSendMessageAI backend msgId ts =
      [⟨"error", "system", "AI is currently offline", ts⟩] ∧
    (callGeminiRetry backend 3 1000).2 = [2000, 4000] ∧
    (callGeminiRetry backend 3 1000).2.Chain' (· ≤ ·) := by
  obtain ⟨m1, hb1, ht1⟩ := h 1 (by decide) (by decide)
  obtain ⟨m2, hb2, ht2⟩ := h 2 (by decide) (by decide)
  obtain ⟨m3, hb3, ht3⟩ := h 3 (by decide) (by decide)
  have hcall : callGeminiRetry backend 3 1000 = (Except.error m3, [2000, 4000]) := by
    simp [callGeminiRetry, retryLoop, attemptOutcome, hb1, hb2, hb3,
      ht1, ht2, ht3]
  refine ⟨?_, ?_, ?_⟩
  · rw [handleSendMessageAI, hcall]
  · rw [hcall]
  · rw [hcall]
    simp

/-- Witness for `backoff_bound`: a backend that always throws a 503. -/
theorem backoff_bound_witness :
    handleSendMessageAI (fun _ => GenResult.err "503 Service Unavailable")
        "m" 0 =
      [⟨"error", "system", "AI is currently offline", 0⟩] ∧
    (callGeminiRetry (fun _ => GenResult.err "503 Service Unavailable")
        3 1000).2 = [2000, 4000] ∧
    (callGeminiRetry (fun _ => GenResult.err "503 Service Unavailable")
        3 1000).2.Chain' (· ≤ ·) :=
  backoff_bound (fun _ => GenResult.err "503 Service Unavailable") "m" 0
    (fun _ _ _ => ⟨"503 Service Unavailable", rfl, by decide⟩)

/-- Client connection-machine state (`useWebRTC`). -/
inductive ConnState where
  | idle
  | connecting
  | connected
  | failed
deriving Repr, DecidableEq

/-- Observable state of the `useWebRTC` hook: the connection phase and
the ordered list of signaling payloads fed into `peer.signal`. -/
structure WebRTCState where
  connectionState : ConnState
  signaled : List String
deriving Repr, DecidableEq

/-- The `handleIncomingSignal` listener of `useWebRTC`: a relayed signal
is fed to the peer instance only when its `from` tag equals the current
session peer id (`data.from === chatData.peerId`); otherwise nothing
happens. -/
def handleIncomingSignal (peerId : String) (st : WebRTCState)
    (src payload : String) : WebRTCState :=
  if src == peerId then { st with signaled := st.signaled ++ [payload] }
  else st

/-- C8: in the connecting or connected state, an inbound handshake
message whose sender tag differs from the current session peer leaves the
hook state unchanged: it is not fed to the negotiation capability and the
connection state is untouched. -/
theorem stale_signal_rejection (peerId : String) (st : WebRTCState)
    (src payload : String)
    (_hstate : st.connectionState = ConnState.connecting ∨
      st.connectionState = ConnState.connected)
    (hne : src ≠ peerId) :
    handleIncomingSignal peerId st src payload = st := by
  rw [handleIncomingSignal, if_neg]
  simp [hne]

/-- Witness for `stale_signal_rejection`: a ghost sender from a prior
session is ignored. -/
theorem stale_signal_rejection_witness :
    handleIncomingSignal "peer1" ⟨ConnState.connecting, []⟩ "ghost" "offer" =
      ⟨ConnState.connecting, []⟩ :=
  stale_signal_rejection "peer1" ⟨ConnState.connecting, []⟩ "ghost" "offer"
    (Or.inl rfl) (by decide)

/-- Whitespace trimming on character lists (JavaScript `trim()`). -/
def trimChars (cs : List Char) : List Char :=
  ((cs.dropWhile Char.isWhitespace).reverse.dropWhile Char.isWhitespace).reverse

/-- The normalization applied to a typed tag:
`interestInput.trim().toLowerCase()`. -/
def normalizeTag (input : String) : String :=
  ⟨(trimChars input.data).map Char.toLower⟩

/-- The `handleAddInterest` key handler of the client: the raw input is
trimmed and lower-cased, then appended if non-empty and not already
present. -/
def handleAddInterest (interests : List String) (input : String) :
    List String :=
  let val := normalizeTag input
  if val != "" && !(interests.contains val) then interests ++ [val]
  else interests

/-- Interest list built by typing a sequence of raw inputs. -/
def buildInterests (inputs : List String) : List String :=
  inputs.foldl handleAddInterest []

lemma handleAddInterest_preserves (acc : List String) (input v : String)
    (h : v ∈ acc) : v ∈ handleAddInterest acc input := by
  simp only [handleAddInterest]
  split
  · exact List.mem_append_left _ h
  · exact h

lemma handleAddInterest_adds (acc : List String) (input : String)
    (h : normalizeTag input ≠ "") :
    normalizeTag input ∈ handleAddInterest acc input := by
  simp only [handleAddInterest]
  by_cases hc : acc.contains (normalizeTag input) = true
  · have hmem : normalizeTag input ∈ acc := List.elem_iff.mp hc
    rw [if_neg (by simp [hmem])]
    exact hmem
  · have hnm : normalizeTag input ∉ acc :=
      fun hm => hc (List.elem_iff.mpr hm)
    rw [if_pos (by simp [h, hnm])]
    exact List.mem_append_right _ (List.mem_singleton.mpr rfl)

lemma foldl_addInterest_preserves (inputs : List String) :
    ∀ acc : List String, ∀ v ∈ acc,
      v ∈ inputs.foldl handleAddInterest acc := by
  induction inputs with
  | nil => intro acc v hv; simpa using hv
  | cons i is ih =>
    intro acc v hv
    rw [List.foldl_cons]
    exact ih (handleAddInterest acc i) v (handleAddInterest_preserves acc i v hv)

lemma mem_buildInterests {inputs : List String} {x : String}
    (hx : x ∈ inputs) (hne : normalizeTag x ≠ "") :
    normalizeTag x ∈ buildInterests inputs := by
  rw [buildInterests]
  suffices h : ∀ acc : List String,
      normalizeTag x ∈ inputs.foldl handleAddInterest acc from h []
  induction inputs with
  | nil => exact absurd hx (by simp)
  | cons i is ih =>
    intro acc
    rw [List.foldl_cons]
    rcases List.mem_cons.mp hx with hx1 | hx2
    · subst hx1
      exact foldl_addInterest_preserves is _ _
        (handleAddInterest_adds acc x hne)
    · exact ih hx2 (handleAddInterest acc i)

/-- C9: matchmaking compatibility is invariant under letter case of the
typed tags: if two participants each typed a tag whose trimmed,
lower-cased forms coincide (and are non-empty), the interest lists the
client builds for them are compatible under the server's tag rule. -/
theorem case_normalized_compatibility (xs ys : List String) (x y : String)
    (hx : x ∈ xs) (hy : y ∈ ys)
    (hxy : normalizeTag x = normalizeTag y)
    (hne : normalizeTag x ≠ "") :
    compatible (buildInterests xs) (buildInterests ys) = true := by
  have hmx := mem_buildInterests hx hne
  have hmy := mem_buildInterests hy (hxy ▸ hne)
  rw [compatible_iff]
  exact Or.inr ⟨List.ne_nil_of_mem hmx, List.ne_nil_of_mem hmy,
    normalizeTag x, hmx, hxy ▸ hmy⟩

/-- Witness for `case_normalized_compatibility`: "Music" typed by one
side and "music" by the other produce compatible interest lists. -/
theorem case_normalized_compatibility_witness :
    compatible (buildInterests ["Music"]) (buildInterests ["music"]) = true :=
  case_normalized_compatibility ["Music"] ["music"] "Music" "music"
    (by decide) (by decide) (by decide) (by decide)

end SocketStream
